import Mathlib

/-!
# Verification of the explicit Runge-Kutta and Heun-Euler adaptive steppers

Shallow embedding of the two integrators from
`06b-Runge-Kutta-and-adaptivity.ipynb` over exact rational arithmetic
(scalar state).  Lists are kept in the order the Python code builds them
(append at the end, `ts[-1]` reads the last element).  Both `while` loops
are embedded with an explicit fuel parameter returning `Option`: a
terminating call is a call returning `some`, and non-termination is
`none` for every fuel.
-/

namespace RKAdapt

/-- Stage derivatives of an explicit Runge-Kutta step.
`rkStages a c f t y h m` is the list `[k_0, ..., k_(m-1)]` where
`k_i = f (t + c_i * h) (y + Σ_{j<i} h * a_ij * k_j)`, exactly the inner
`for i in range(s)` loop of `explicitRK` (the Python `ks` array is
rewritten before any stale entry could be read, so rebuilding it each
outer iteration is equivalent). -/
def rkStages (a : ℕ → ℕ → ℚ) (c : List ℚ) (f : ℚ → ℚ → ℚ)
    (t y h : ℚ) : ℕ → List ℚ
  | 0 => []
  | m + 1 =>
    let ks := rkStages a c f t y h m
    let ti := t + c.getD m 0 * h
    let dY := (List.range m).foldl (fun acc j => acc + h * a m j * ks.getD j 0) 0
    ks ++ [f ti (y + dY)]

/-- The increment `Σ_i h * b_i * k_i` of one Runge-Kutta step
(the `for i in range(s): dy += h*b[i]*ks[i]` loop). -/
def rkIncrement (b : List ℚ) (ks : List ℚ) (h : ℚ) : ℚ :=
  (List.range b.length).foldl (fun acc i => acc + h * b.getD i 0 * ks.getD i 0) 0

/-- One full step of the explicit Runge-Kutta method:
`y + Σ_i h * b_i * k_i`. -/
def rkStep (a : ℕ → ℕ → ℚ) (b c : List ℚ) (f : ℚ → ℚ → ℚ)
    (h t y : ℚ) : ℚ :=
  y + rkIncrement b (rkStages a c f t y h b.length) h

/-- Accumulated trajectory of `explicitRK`: the `ts` and `ys` arrays. -/
structure RKState where
  ts : List ℚ
  ys : List ℚ
  deriving DecidableEq, Repr

/-- One iteration of the `while(ts[-1] < T)` loop body of `explicitRK`:
read `t, y = ts[-1], ys[-1]`, compute the stages and the increment, and
append `y + dy` and `t + h`. -/
def rkLoopBody (a : ℕ → ℕ → ℚ) (b c : List ℚ) (f : ℚ → ℚ → ℚ)
    (h : ℚ) (s : RKState) : RKState :=
  let t := s.ts.getLastD 0
  let y := s.ys.getLastD 0
  { ts := s.ts ++ [t + h], ys := s.ys ++ [rkStep a b c f h t y] }

/-- The `while(ts[-1] < T)` loop of `explicitRK`, with fuel. -/
def rkLoop (a : ℕ → ℕ → ℚ) (b c : List ℚ) (f : ℚ → ℚ → ℚ)
    (T h : ℚ) : ℕ → RKState → Option RKState
  | 0, s => if s.ts.getLastD 0 < T then none else some s
  | fuel + 1, s =>
    if s.ts.getLastD 0 < T then
      rkLoop a b c f T h fuel (rkLoopBody a b c f h s)
    else some s

/-- Fixed-step explicit Runge-Kutta integration
`explicitRK(a, b, c, y0, T, f, h)` of `y' = f(t, y)` from `(0, y0)`,
returning `(ts, ys)` when the loop terminates within `fuel` iterations. -/
def explicitRK (a : ℕ → ℕ → ℚ) (b c : List ℚ) (y0 T : ℚ)
    (f : ℚ → ℚ → ℚ) (h : ℚ) (fuel : ℕ) : Option (List ℚ × List ℚ) :=
  (rkLoop a b c f T h fuel { ts := [0], ys := [y0] }).map fun s => (s.ts, s.ys)

/-- Accumulated state of `HeunWithEuler`: the `ts`, `ys`, `hs` arrays and
the current step-size variable `h`. -/
structure HEState where
  ts : List ℚ
  ys : List ℚ
  hs : List ℚ
  h : ℚ
  deriving DecidableEq, Repr

/-- One iteration of the `while(ts[-1] < T)` loop body of `HeunWithEuler`:
two stages `k1 = f(t,y)`, `k2 = f(t+h, y+h*k1)`, error estimate
`epsilon = |h*((.5-1)*k1 + (.5-0)*k2)|`; if `epsilon ≤ tol` either clip
the step size (`t+h > T`) or append the Heun update and grow `h` by
`alpha`; otherwise shrink `h` by `h*gamma*((tol/epsilon)**1/2)` (the
Python expression, in which `**` binds before `/`). -/
def heunStep (f : ℚ → ℚ → ℚ) (T tol gamma alpha : ℚ) (s : HEState) : HEState :=
  let t := s.ts.getLastD 0
  let y := s.ys.getLastD 0
  let k1 := f t y
  let k2 := f (t + s.h) (y + s.h * k1)
  let epsilon := |s.h * ((1/2 - 1) * k1 + (1/2 - 0) * k2)|
  if epsilon ≤ tol then
    if T < t + s.h then
      { s with h := T - t }
    else
      { ts := s.ts ++ [t + s.h]
        ys := s.ys ++ [y + 1/2 * s.h * (k1 + k2)]
        hs := s.hs ++ [s.h]
        h := alpha * s.h }
  else
    { s with h := s.h * gamma * ((tol / epsilon) ^ 1 / 2) }

/-- The `while(ts[-1] < T)` loop of `HeunWithEuler`, with fuel. -/
def heunLoop (f : ℚ → ℚ → ℚ) (T tol gamma alpha : ℚ) :
    ℕ → HEState → Option HEState
  | 0, s => if s.ts.getLastD 0 < T then none else some s
  | fuel + 1, s =>
    if s.ts.getLastD 0 < T then
      heunLoop f T tol gamma alpha fuel (heunStep f T tol gamma alpha s)
    else some s

/-- Adaptive embedded Heun/Euler integration
`HeunWithEuler(y0, T, f, h, tol, gamma, alpha)` from `(0, y0)` with
initial step-size guess `h`, returning `(ts, ys, hs)` when the loop
terminates within `fuel` iterations. -/
def HeunWithEuler (y0 T : ℚ) (f : ℚ → ℚ → ℚ) (h tol gamma alpha : ℚ)
    (fuel : ℕ) : Option (List ℚ × List ℚ × List ℚ) :=
  (heunLoop f T tol gamma alpha fuel { ts := [0], ys := [y0], hs := [h], h := h }).map
    fun s => (s.ts, s.ys, s.hs)

/-- First stage `k1 = f(t, y)` of a `HeunWithEuler` iteration from state `s`. -/
def heunK1 (f : ℚ → ℚ → ℚ) (s : HEState) : ℚ :=
  f (s.ts.getLastD 0) (s.ys.getLastD 0)

/-- Second stage `k2 = f(t+h, y+h*k1)` of a `HeunWithEuler` iteration. -/
def heunK2 (f : ℚ → ℚ → ℚ) (s : HEState) : ℚ :=
  f (s.ts.getLastD 0 + s.h) (s.ys.getLastD 0 + s.h * heunK1 f s)

/-- Error estimate `epsilon = norm(h*((.5-1)*k1 + (.5-0)*k2))` of a
`HeunWithEuler` iteration (scalar norm = absolute value). -/
def heunEpsilon (f : ℚ → ℚ → ℚ) (s : HEState) : ℚ :=
  |s.h * ((1/2 - 1) * heunK1 f s + (1/2 - 0) * heunK2 f s)|

/-- Right-hand side `f(t, y) = 0` for `t = 0` and `1/t` otherwise; its
Heun-Euler error estimate from the initial state is `1/2` at every
positive step size, so it can never meet a tolerance below `1/2`. -/
def heunBadF : ℚ → ℚ → ℚ := fun t _ => if t = 0 then 0 else 1/t

/-! ## Helper lemmas -/

/-- Characterization of `heunStep` through the named stages and the error
estimate (definitional unfolding of the `let` bindings). -/
theorem heunStep_eq (f : ℚ → ℚ → ℚ) (T tol gamma alpha : ℚ) (s : HEState) :
    heunStep f T tol gamma alpha s =
      if heunEpsilon f s ≤ tol then
        if T < s.ts.getLastD 0 + s.h then
          { s with h := T - s.ts.getLastD 0 }
        else
          { ts := s.ts ++ [s.ts.getLastD 0 + s.h]
            ys := s.ys ++ [s.ys.getLastD 0 + 1/2 * s.h * (heunK1 f s + heunK2 f s)]
            hs := s.hs ++ [s.h]
            h := alpha * s.h }
      else
        { s with h := s.h * gamma * ((tol / heunEpsilon f s) ^ 1 / 2) } := rfl

/-- A state invariant preserved by the loop body of `heunLoop` holds at
exit, and the loop guard fails there. -/
theorem heunLoop_invariant (f : ℚ → ℚ → ℚ) (T tol gamma alpha : ℚ)
    (Inv : HEState → Prop)
    (hstep : ∀ s, Inv s → s.ts.getLastD 0 < T →
      Inv (heunStep f T tol gamma alpha s)) :
    ∀ fuel s s', heunLoop f T tol gamma alpha fuel s = some s' → Inv s →
      Inv s' ∧ ¬ s'.ts.getLastD 0 < T := by
  intro fuel
  induction fuel with
  | zero =>
    intro s s' hrun hInv
    rw [heunLoop] at hrun
    by_cases hc : s.ts.getLastD 0 < T
    · rw [if_pos hc] at hrun
      exact absurd hrun (by simp)
    · rw [if_neg hc] at hrun
      exact (Option.some.inj hrun) ▸ ⟨hInv, hc⟩
  | succ n ih =>
    intro s s' hrun hInv
    rw [heunLoop] at hrun
    by_cases hc : s.ts.getLastD 0 < T
    · rw [if_pos hc] at hrun
      exact ih _ _ hrun (hstep s hInv hc)
    · rw [if_neg hc] at hrun
      exact (Option.some.inj hrun) ▸ ⟨hInv, hc⟩

/-- A state invariant preserved by the loop body of `rkLoop` holds at
exit, and the loop guard fails there. -/
theorem rkLoop_invariant (a : ℕ → ℕ → ℚ) (b c : List ℚ) (f : ℚ → ℚ → ℚ)
    (T h : ℚ) (Inv : RKState → Prop)
    (hstep : ∀ s, Inv s → s.ts.getLastD 0 < T →
      Inv (rkLoopBody a b c f h s)) :
    ∀ fuel s s', rkLoop a b c f T h fuel s = some s' → Inv s →
      Inv s' ∧ ¬ s'.ts.getLastD 0 < T := by
  intro fuel
  induction fuel with
  | zero =>
    intro s s' hrun hInv
    rw [rkLoop] at hrun
    by_cases hc : s.ts.getLastD 0 < T
    · rw [if_pos hc] at hrun
      exact absurd hrun (by simp)
    · rw [if_neg hc] at hrun
      exact (Option.some.inj hrun) ▸ ⟨hInv, hc⟩
  | succ n ih =>
    intro s s' hrun hInv
    rw [rkLoop] at hrun
    by_cases hc : s.ts.getLastD 0 < T
    · rw [if_pos hc] at hrun
      exact ih _ _ hrun (hstep s hInv hc)
    · rw [if_neg hc] at hrun
      exact (Option.some.inj hrun) ▸ ⟨hInv, hc⟩

/-- Termination of `rkLoop` once the fuel covers the remaining distance
to the horizon. -/
theorem rkLoop_terminates (a : ℕ → ℕ → ℚ) (b c : List ℚ) (f : ℚ → ℚ → ℚ)
    (T h : ℚ) :
    ∀ (fuel : ℕ) (s : RKState), T ≤ s.ts.getLastD 0 + (fuel : ℚ) * h →
      ∃ s', rkLoop a b c f T h fuel s = some s' := by
  intro fuel
  induction fuel with
  | zero =>
    intro s hb
    simp only [Nat.cast_zero, zero_mul, add_zero] at hb
    refine ⟨s, ?_⟩
    rw [rkLoop, if_neg (not_lt.mpr hb)]
  | succ n ih =>
    intro s hb
    by_cases hc : s.ts.getLastD 0 < T
    · rw [rkLoop, if_pos hc]
      apply ih
      show T ≤ (rkLoopBody a b c f h s).ts.getLastD 0 + (n : ℚ) * h
      rw [rkLoopBody]
      simp only [List.getLastD_concat]
      push_cast at hb ⊢
      linarith
    · exact ⟨s, by rw [rkLoop, if_neg hc]⟩

/-- On `heunBadF`, a loop iteration from the initial-shaped state rejects
the step and only divides the step size by `8`. -/
theorem heunBadF_step (h : ℚ) (hh : 0 < h) :
    heunStep heunBadF 1 (1/4) (1/2) 2 ⟨[0], [0], [1], h⟩ = ⟨[0], [0], [1], h / 8⟩ := by
  have hne : h ≠ 0 := ne_of_gt hh
  have hk1 : heunK1 heunBadF ⟨[0], [0], [1], h⟩ = 0 := by
    simp [heunK1, heunBadF, List.getLastD]
  have hk2 : heunK2 heunBadF ⟨[0], [0], [1], h⟩ = 1 / h := by
    simp [heunK2, heunK1, heunBadF, List.getLastD, hne]
  have heps : heunEpsilon heunBadF ⟨[0], [0], [1], h⟩ = 1/2 := by
    rw [heunEpsilon, hk1, hk2]
    have harg : h * ((1/2 - 1) * 0 + (1/2 - 0) * (1 / h)) = 1/2 := by
      field_simp
      ring
    rw [harg]
    norm_num
  rw [heunStep_eq, heps]
  rw [if_neg (by norm_num : ¬ (1/2 : ℚ) ≤ 1/4)]
  simp only [HEState.mk.injEq, true_and]
  rw [pow_one]
  ring

/-- On `heunBadF` the loop guard stays true and every iteration rejects,
for every positive current step size. -/
theorem heunBadF_loop_none : ∀ (fuel : ℕ) (h : ℚ), 0 < h →
    heunLoop heunBadF 1 (1/4) (1/2) 2 fuel ⟨[0], [0], [1], h⟩ = none := by
  intro fuel
  induction fuel with
  | zero =>
    intro h hh
    rw [heunLoop, if_pos (by norm_num [List.getLastD] : ([0] : List ℚ).getLastD 0 < 1)]
  | succ n ih =>
    intro h hh
    rw [heunLoop, if_pos (by norm_num [List.getLastD] : ([0] : List ℚ).getLastD 0 < 1)]
    rw [heunBadF_step h hh]
    exact ih (h / 8) (by positivity)

/-- On a nonempty list, `getLastD` agrees with `getLast`. -/
theorem getLastD_of_ne_nil (l : List ℚ) (hl : l ≠ []) :
    l.getLastD 0 = l.getLast hl := by
  rw [List.getLastD_eq_getLast?, List.getLast?_eq_getLast l hl]
  rfl

/-- One `heunStep` from a state with nonempty strictly increasing times
bounded by the horizon and a positive step size, taken while the loop
guard holds, yields a state of the same shape (for positive tolerance,
`gamma` and `alpha`). -/
theorem heunStep_preserves_times_inv (f : ℚ → ℚ → ℚ) (T tol gamma alpha : ℚ)
    (htol : 0 < tol) (hgamma : 0 < gamma) (halpha : 0 < alpha) (s : HEState)
    (hne : s.ts ≠ []) (hchain : s.ts.Chain' (· < ·))
    (hlast : s.ts.getLastD 0 ≤ T) (hh : 0 < s.h)
    (hc : s.ts.getLastD 0 < T) :
    (heunStep f T tol gamma alpha s).ts ≠ [] ∧
    (heunStep f T tol gamma alpha s).ts.Chain' (· < ·) ∧
    (heunStep f T tol gamma alpha s).ts.getLastD 0 ≤ T ∧
    0 < (heunStep f T tol gamma alpha s).h := by
  rw [heunStep_eq]
  split_ifs with h1 h2
  · exact ⟨hne, hchain, hlast, sub_pos.mpr hc⟩
  · refine ⟨by simp, ?_, ?_, mul_pos halpha hh⟩
    · rw [List.chain'_append]
      refine ⟨hchain, List.chain'_singleton _, ?_⟩
      intro x hx y hy
      rw [List.getLast?_eq_getLast s.ts hne, Option.mem_some_iff] at hx
      simp only [List.head?_cons, Option.mem_some_iff] at hy
      rw [← hx, ← hy, ← getLastD_of_ne_nil s.ts hne]
      exact lt_add_of_pos_right _ hh
    · rw [List.getLastD_concat]
      exact not_lt.mp h2
  · refine ⟨hne, hchain, hlast, ?_⟩
    have heps : 0 < heunEpsilon f s := htol.trans (not_le.mp h1)
    rw [pow_one]
    exact mul_pos (mul_pos hh hgamma) (div_pos (div_pos htol heps) two_pos)

/-! ## Claim theorems -/

/-- C1: for every terminating call to `HeunWithEuler` with `T > 0` and
positive initial step-size guess, tolerance, `gamma` and `alpha`, the
returned time sequence is strictly increasing (pairwise `<`) and its
final entry equals the horizon `T` exactly. -/
theorem heun_times_strictly_increasing_final_horizon
    (y0 T h0 tol gamma alpha : ℚ) (f : ℚ → ℚ → ℚ) (fuel : ℕ)
    (ts ys hs : List ℚ)
    (hT : 0 < T) (hh0 : 0 < h0) (htol : 0 < tol) (hgamma : 0 < gamma)
    (halpha : 0 < alpha)
    (hrun : HeunWithEuler y0 T f h0 tol gamma alpha fuel = some (ts, ys, hs)) :
    ts.Pairwise (· < ·) ∧ ts.getLast? = some T := by
  unfold HeunWithEuler at hrun
  obtain ⟨s', hrun', heq⟩ := Option.map_eq_some'.mp hrun
  simp only [Prod.mk.injEq] at heq
  obtain ⟨hts, hys, hhs⟩ := heq
  subst hts hys hhs
  have Hinv := heunLoop_invariant f T tol gamma alpha
    (fun s => s.ts ≠ [] ∧ s.ts.Chain' (· < ·) ∧ s.ts.getLastD 0 ≤ T ∧ 0 < s.h)
    (fun s hI hc =>
      heunStep_preserves_times_inv f T tol gamma alpha htol hgamma halpha s
        hI.1 hI.2.1 hI.2.2.1 hI.2.2.2 hc)
    fuel _ s' hrun'
    ⟨by simp, List.chain'_singleton _, by simpa [List.getLastD] using hT.le, hh0⟩
  obtain ⟨⟨hne', hchain', hlastle', _⟩, hstop⟩ := Hinv
  refine ⟨List.chain'_iff_pairwise.mp hchain', ?_⟩
  have hlast : s'.ts.getLastD 0 = T := le_antisymm hlastle' (not_lt.mp hstop)
  rw [List.getLast?_eq_getLast s'.ts hne']
  exact congrArg some ((getLastD_of_ne_nil s'.ts hne').symm.trans hlast)

/-- Witness for C1: on the constant field `f = 0` with `T = 1`, `h = 1`,
the call terminates in one accepted step with times `[0, 1]`, which are
pairwise increasing and end at the horizon. -/
theorem heun_times_strictly_increasing_final_horizon_witness :
    ((0:ℚ) < 1 ∧ (0:ℚ) < 1 ∧ (0:ℚ) < 1 ∧ (0:ℚ) < 1/2 ∧ (0:ℚ) < 2 ∧
      HeunWithEuler 0 1 (fun _ _ => 0) 1 1 (1/2) 2 2 =
        some ([0, 1], [0, 0], [1, 1])) ∧
    ([0, 1] : List ℚ).Pairwise (· < ·) ∧
    ([0, 1] : List ℚ).getLast? = some 1 :=
  ⟨⟨by norm_num, by norm_num, by norm_num, by norm_num, by norm_num,
    by norm_num [HeunWithEuler, heunLoop, heunStep, List.getLastD]⟩,
   heun_times_strictly_increasing_final_horizon 0 1 1 1 (1/2) 2 (fun _ _ => 0)
     2 [0, 1] [0, 0] [1, 1] (by norm_num) (by norm_num) (by norm_num)
     (by norm_num) (by norm_num)
     (by norm_num [HeunWithEuler, heunLoop, heunStep, List.getLastD])⟩

/-- C2: whenever the error estimate exceeds the tolerance, the iteration
appends no entry to the time, state, or step-size sequences, and the step
size is updated to `h*gamma*(tol/epsilon)/2` — the operator-precedence
value of the Python expression `h*gamma*((tol/epsilon)**1/2)`, not the
conventional `h*gamma*sqrt(tol/epsilon)`. -/
theorem heun_reject_no_append_shrinks (f : ℚ → ℚ → ℚ)
    (T tol gamma alpha : ℚ) (s : HEState)
    (hrej : tol < heunEpsilon f s) :
    (heunStep f T tol gamma alpha s).ts = s.ts ∧
    (heunStep f T tol gamma alpha s).ys = s.ys ∧
    (heunStep f T tol gamma alpha s).hs = s.hs ∧
    (heunStep f T tol gamma alpha s).h =
      s.h * gamma * (tol / heunEpsilon f s) / 2 := by
  rw [heunStep_eq, if_neg (not_le.mpr hrej)]
  refine ⟨rfl, rfl, rfl, ?_⟩
  show s.h * gamma * ((tol / heunEpsilon f s) ^ 1 / 2) = _
  rw [pow_one]
  ring

/-- Witness for C2: at `f(t,y) = 100t` from the initial state with step
size `1`, the estimate is `50 > tol = 1`, nothing is appended, and the
new step size is `1 * (1/2) * (1/50) / 2`. -/
theorem heun_reject_no_append_shrinks_witness :
    (1 : ℚ) < heunEpsilon (fun t _ => 100 * t) ⟨[0], [0], [1], 1⟩ ∧
    ((heunStep (fun t _ => 100 * t) 1 1 (1/2) 2 ⟨[0], [0], [1], 1⟩).ts = [0] ∧
     (heunStep (fun t _ => 100 * t) 1 1 (1/2) 2 ⟨[0], [0], [1], 1⟩).ys = [0] ∧
     (heunStep (fun t _ => 100 * t) 1 1 (1/2) 2 ⟨[0], [0], [1], 1⟩).hs = [1] ∧
     (heunStep (fun t _ => 100 * t) 1 1 (1/2) 2 ⟨[0], [0], [1], 1⟩).h =
       1 * (1/2) * (1 / heunEpsilon (fun t _ => 100 * t) ⟨[0], [0], [1], 1⟩) / 2) :=
  ⟨by norm_num [heunEpsilon, heunK1, heunK2, List.getLastD],
   heun_reject_no_append_shrinks (fun t _ => 100 * t) 1 1 (1/2) 2
    ⟨[0], [0], [1], 1⟩ (by norm_num [heunEpsilon, heunK1, heunK2, List.getLastD])⟩

/-- C5: the error estimate equals `|h*((0.5-1)*k1 + (0.5-0)*k2)| =
|h*(k2-k1)/2|`; an entry is appended exactly when the estimate is at or
below tolerance and `t+h` does not exceed the horizon, the appended state
is `y + 0.5*h*(k1+k2)` at time `t+h`, and the step size is then
multiplied by `alpha`. -/
theorem heun_step_error_estimate_and_accept (f : ℚ → ℚ → ℚ)
    (T tol gamma alpha : ℚ) (s : HEState) :
    heunEpsilon f s = |s.h * (heunK2 f s - heunK1 f s) / 2| ∧
    (heunEpsilon f s ≤ tol → s.ts.getLastD 0 + s.h ≤ T →
      heunStep f T tol gamma alpha s =
        { ts := s.ts ++ [s.ts.getLastD 0 + s.h]
          ys := s.ys ++ [s.ys.getLastD 0 + 1/2 * s.h * (heunK1 f s + heunK2 f s)]
          hs := s.hs ++ [s.h]
          h := alpha * s.h }) ∧
    (¬ (heunEpsilon f s ≤ tol ∧ s.ts.getLastD 0 + s.h ≤ T) →
      (heunStep f T tol gamma alpha s).ts = s.ts ∧
      (heunStep f T tol gamma alpha s).ys = s.ys ∧
      (heunStep f T tol gamma alpha s).hs = s.hs) := by
  refine ⟨?_, ?_, ?_⟩
  · unfold heunEpsilon
    congr 1
    ring
  · intro h1 h2
    rw [heunStep_eq, if_pos h1, if_neg (not_lt.mpr h2)]
  · intro hn
    rw [heunStep_eq]
    by_cases h1 : heunEpsilon f s ≤ tol
    · have h2 : T < s.ts.getLastD 0 + s.h := by
        by_contra hle
        exact hn ⟨h1, not_lt.mp hle⟩
      rw [if_pos h1, if_pos h2]
      exact ⟨rfl, rfl, rfl⟩
    · rw [if_neg h1]
      exact ⟨rfl, rfl, rfl⟩

/-- Witness for C5: on the constant field `f = 2` with `h = 1`, `T = 1`,
`tol = 1`, `alpha = 2`, the estimate is `0 ≤ 1`, the step fits, and the
iteration appends `(1, 2)` with step size `1` and doubles `h`. -/
theorem heun_step_error_estimate_and_accept_witness :
    (heunEpsilon (fun _ _ => 2) ⟨[0], [0], [1], 1⟩ ≤ 1 ∧
      ([0] : List ℚ).getLastD 0 + (1 : ℚ) ≤ 1) ∧
    heunStep (fun _ _ => 2) 1 1 (1/2) 2 ⟨[0], [0], [1], 1⟩ =
      ⟨[0, 1], [0, 2], [1, 1], 2⟩ := by
  refine ⟨⟨by norm_num [heunEpsilon, heunK1, heunK2, List.getLastD],
    by norm_num [List.getLastD]⟩, ?_⟩
  rw [(heun_step_error_estimate_and_accept (fun _ _ => 2) 1 1 (1/2) 2
    ⟨[0], [0], [1], 1⟩).2.1
      (by norm_num [heunEpsilon, heunK1, heunK2, List.getLastD])
      (by norm_num [List.getLastD])]
  norm_num [HEState.mk.injEq, heunK1, heunK2, List.getLastD]

/-- C8: there is an input on which `HeunWithEuler` never terminates: on
`heunBadF` the error estimate is `1/2 > tol = 1/4` at every positive step
size, so the rejection branch repeats forever and the loop returns `none`
for every fuel bound. -/
theorem heunWithEuler_nontermination :
    ∀ fuel : ℕ, HeunWithEuler 0 1 heunBadF 1 (1/4) (1/2) 2 fuel = none := by
  intro fuel
  unfold HeunWithEuler
  rw [heunBadF_loop_none fuel 1 one_pos]
  rfl

/-- C9: with horizon `0`, both integrators return the single-sample
trajectory `(0, y0)` without ever calling the right-hand side (the result
is the same for every `f`), and `HeunWithEuler` returns the single-entry
step-size sequence holding the initial guess. -/
theorem horizon_zero_single_sample (fuel : ℕ) (a : ℕ → ℕ → ℚ) (b c : List ℚ)
    (y0 : ℚ) (f : ℚ → ℚ → ℚ) (h tol gamma alpha : ℚ) :
    explicitRK a b c y0 0 f h fuel = some ([0], [y0]) ∧
    HeunWithEuler y0 0 f h tol gamma alpha fuel = some ([0], [y0], [h]) := by
  have hcond : ¬ (([0] : List ℚ).getLastD 0 < 0) := by norm_num [List.getLastD]
  constructor
  · unfold explicitRK
    cases fuel with
    | zero => rw [rkLoop, if_neg hcond]; rfl
    | succ n => rw [rkLoop, if_neg hcond]; rfl
  · unfold HeunWithEuler
    cases fuel with
    | zero => rw [heunLoop, if_neg hcond]; rfl
    | succ n => rw [heunLoop, if_neg hcond]; rfl

/-- On a nonempty list, `getD` at the last position agrees with
`getLastD`. -/
theorem getD_length_sub_one (l : List ℚ) (hl : l ≠ []) :
    l.getD (l.length - 1) 0 = l.getLastD 0 := by
  rw [getLastD_of_ne_nil l hl, List.getLast_eq_getElem]
  exact List.getD_eq_getElem l 0 (Nat.sub_lt (List.length_pos.mpr hl) one_pos)

/-- One `heunStep` preserves: equal lengths of the three sequences, a
nonempty step-size sequence with unchanged first entry and positive
entries, and a positive current step size. -/
theorem heunStep_preserves_hs_inv (f : ℚ → ℚ → ℚ) (T tol gamma alpha h0 : ℚ)
    (htol : 0 < tol) (hgamma : 0 < gamma) (halpha : 0 < alpha) (s : HEState)
    (hlen1 : s.ts.length = s.ys.length) (hlen2 : s.ts.length = s.hs.length)
    (hne : s.hs ≠ []) (hhead : s.hs.head? = some h0)
    (hall : ∀ x ∈ s.hs, 0 < x) (hh : 0 < s.h)
    (hc : s.ts.getLastD 0 < T) :
    (heunStep f T tol gamma alpha s).ts.length =
      (heunStep f T tol gamma alpha s).ys.length ∧
    (heunStep f T tol gamma alpha s).ts.length =
      (heunStep f T tol gamma alpha s).hs.length ∧
    (heunStep f T tol gamma alpha s).hs ≠ [] ∧
    (heunStep f T tol gamma alpha s).hs.head? = some h0 ∧
    (∀ x ∈ (heunStep f T tol gamma alpha s).hs, 0 < x) ∧
    0 < (heunStep f T tol gamma alpha s).h := by
  rw [heunStep_eq]
  split_ifs with h1 h2
  · exact ⟨hlen1, hlen2, hne, hhead, hall, sub_pos.mpr hc⟩
  · refine ⟨by simp [hlen1], by simp [hlen2], by simp, ?_, ?_, mul_pos halpha hh⟩
    · rw [List.head?_append, hhead]
      rfl
    · intro x hx
      rcases List.mem_append.mp hx with hx' | hx'
      · exact hall x hx'
      · rw [List.mem_singleton.mp hx']
        exact hh
  · refine ⟨hlen1, hlen2, hne, hhead, hall, ?_⟩
    have heps : 0 < heunEpsilon f s := htol.trans (not_le.mp h1)
    rw [pow_one]
    exact mul_pos (mul_pos hh hgamma) (div_pos (div_pos htol heps) two_pos)

/-- One `heunStep` preserves: nonempty times, equal lengths of times and
step sizes, and that each recorded step size past the first equals the
difference of the corresponding consecutive times. -/
theorem heunStep_preserves_diff_inv (f : ℚ → ℚ → ℚ) (T tol gamma alpha : ℚ)
    (s : HEState)
    (hne : s.ts ≠ []) (hlen : s.ts.length = s.hs.length)
    (hdiff : ∀ i, 1 ≤ i → i < s.hs.length →
      s.hs.getD i 0 = s.ts.getD i 0 - s.ts.getD (i-1) 0) :
    (heunStep f T tol gamma alpha s).ts ≠ [] ∧
    (heunStep f T tol gamma alpha s).ts.length =
      (heunStep f T tol gamma alpha s).hs.length ∧
    ∀ i, 1 ≤ i → i < (heunStep f T tol gamma alpha s).hs.length →
      (heunStep f T tol gamma alpha s).hs.getD i 0 =
        (heunStep f T tol gamma alpha s).ts.getD i 0 -
        (heunStep f T tol gamma alpha s).ts.getD (i-1) 0 := by
  rw [heunStep_eq]
  split_ifs with h1 h2
  · exact ⟨hne, hlen, hdiff⟩
  · refine ⟨by simp, by simp [hlen], ?_⟩
    have hL : 0 < s.ts.length := List.length_pos.mpr hne
    intro i hi1 hi2
    simp only [List.length_append, List.length_singleton] at hi2
    rcases Nat.lt_succ_iff_lt_or_eq.mp hi2 with hlt | heqL
    · have him : i - 1 < s.ts.length := by omega
      have hit : i < s.ts.length := by omega
      rw [List.getD_append _ _ _ _ hlt, List.getD_append _ _ _ _ hit,
        List.getD_append _ _ _ _ him]
      exact hdiff i hi1 hlt
    · subst heqL
      show (s.hs ++ [s.h]).getD s.hs.length 0 =
        (s.ts ++ [s.ts.getLastD 0 + s.h]).getD s.hs.length 0 -
        (s.ts ++ [s.ts.getLastD 0 + s.h]).getD (s.hs.length - 1) 0
      rw [List.getD_append_right _ _ _ _ (le_refl s.hs.length),
        List.getD_append_right _ _ _ _ (le_of_eq hlen),
        List.getD_append _ _ _ _ (by omega : s.hs.length - 1 < s.ts.length),
        Nat.sub_self]
      rw [show s.hs.length - s.ts.length = 0 by omega]
      simp only [List.getD_cons_zero]
      rw [← hlen, getD_length_sub_one s.ts hne]
      ring
  · exact ⟨hne, hlen, hdiff⟩

/-- C7: for every terminating call to `HeunWithEuler` with positive
initial step-size guess, tolerance, `gamma` and `alpha`, the returned
step-size sequence has the same length as the time and state sequences,
its first entry is the caller's initial guess, and every entry is
positive. -/
theorem heun_stepsizes_shape
    (y0 T h0 tol gamma alpha : ℚ) (f : ℚ → ℚ → ℚ) (fuel : ℕ)
    (ts ys hs : List ℚ)
    (hh0 : 0 < h0) (htol : 0 < tol) (hgamma : 0 < gamma) (halpha : 0 < alpha)
    (hrun : HeunWithEuler y0 T f h0 tol gamma alpha fuel = some (ts, ys, hs)) :
    hs.length = ts.length ∧ hs.length = ys.length ∧
    hs.head? = some h0 ∧ ∀ x ∈ hs, 0 < x := by
  unfold HeunWithEuler at hrun
  obtain ⟨s', hrun', heq⟩ := Option.map_eq_some'.mp hrun
  simp only [Prod.mk.injEq] at heq
  obtain ⟨hts, hys, hhs⟩ := heq
  subst hts hys hhs
  have Hinv := heunLoop_invariant f T tol gamma alpha
    (fun s => s.ts.length = s.ys.length ∧ s.ts.length = s.hs.length ∧
      s.hs ≠ [] ∧ s.hs.head? = some h0 ∧ (∀ x ∈ s.hs, 0 < x) ∧ 0 < s.h)
    (fun s hI hc =>
      heunStep_preserves_hs_inv f T tol gamma alpha h0 htol hgamma halpha s
        hI.1 hI.2.1 hI.2.2.1 hI.2.2.2.1 hI.2.2.2.2.1 hI.2.2.2.2.2 hc)
    fuel _ s' hrun'
    ⟨rfl, rfl, by simp, rfl, by simpa using hh0, hh0⟩
  obtain ⟨⟨hl1, hl2, _, hhead', hall', _⟩, _⟩ := Hinv
  exact ⟨hl2.symm, hl2.symm.trans hl1, hhead', hall'⟩

/-- Witness for C7: a three-sample terminating run whose step-size
sequence `[1/2, 1/2, 1/2]` matches the trajectory length, starts with
the initial guess `1/2`, and is positive throughout. -/
theorem heun_stepsizes_shape_witness :
    ((0:ℚ) < 1/2 ∧ (0:ℚ) < 1 ∧ (0:ℚ) < 1/2 ∧ (0:ℚ) < 2 ∧
      HeunWithEuler 0 1 (fun _ _ => 0) (1/2) 1 (1/2) 2 4 =
        some ([0, 1/2, 1], [0, 0, 0], [1/2, 1/2, 1/2])) ∧
    ([1/2, 1/2, 1/2] : List ℚ).length = ([0, 1/2, 1] : List ℚ).length ∧
    ([1/2, 1/2, 1/2] : List ℚ).length = ([0, 0, 0] : List ℚ).length ∧
    ([1/2, 1/2, 1/2] : List ℚ).head? = some (1/2) ∧
    ∀ x ∈ ([1/2, 1/2, 1/2] : List ℚ), 0 < x :=
  ⟨⟨by norm_num, by norm_num, by norm_num, by norm_num,
    by norm_num [HeunWithEuler, heunLoop, heunStep, List.getLastD]⟩,
   heun_stepsizes_shape 0 1 (1/2) 1 (1/2) 2 (fun _ _ => 0) 4
     [0, 1/2, 1] [0, 0, 0] [1/2, 1/2, 1/2]
     (by norm_num) (by norm_num) (by norm_num) (by norm_num)
     (by norm_num [HeunWithEuler, heunLoop, heunStep, List.getLastD])⟩

/-- C10: for every terminating call to `HeunWithEuler` and every index
`i ≥ 1`, the `i`-th recorded step size equals the difference
`ts[i] - ts[i-1]` of consecutive returned times. -/
theorem heun_stepsize_matches_time_increment
    (y0 T h0 tol gamma alpha : ℚ) (f : ℚ → ℚ → ℚ) (fuel : ℕ)
    (ts ys hs : List ℚ)
    (hrun : HeunWithEuler y0 T f h0 tol gamma alpha fuel = some (ts, ys, hs)) :
    ∀ i, 1 ≤ i → i < hs.length →
      hs.getD i 0 = ts.getD i 0 - ts.getD (i-1) 0 := by
  unfold HeunWithEuler at hrun
  obtain ⟨s', hrun', heq⟩ := Option.map_eq_some'.mp hrun
  simp only [Prod.mk.injEq] at heq
  obtain ⟨hts, hys, hhs⟩ := heq
  subst hts hys hhs
  have Hinv := heunLoop_invariant f T tol gamma alpha
    (fun s => s.ts ≠ [] ∧ s.ts.length = s.hs.length ∧
      ∀ i, 1 ≤ i → i < s.hs.length →
        s.hs.getD i 0 = s.ts.getD i 0 - s.ts.getD (i-1) 0)
    (fun s hI hc =>
      heunStep_preserves_diff_inv f T tol gamma alpha s hI.1 hI.2.1 hI.2.2)
    fuel _ s' hrun'
    ⟨by simp, rfl, by intro i hi1 hi2; simp at hi2; omega⟩
  exact Hinv.1.2.2

/-- Witness for C10: in a three-sample terminating run the step size
recorded at index 1 equals `ts[1] - ts[0]`. -/
theorem heun_stepsize_matches_time_increment_witness :
    (HeunWithEuler 0 1 (fun _ _ => 1) (1/2) 1 (1/2) 2 4 =
      some ([0, 1/2, 1], [0, 1/2, 1], [1/2, 1/2, 1/2]) ∧
      (1:ℕ) ≤ 1 ∧ (1:ℕ) < ([1/2, 1/2, 1/2] : List ℚ).length) ∧
    ([1/2, 1/2, 1/2] : List ℚ).getD 1 0 =
      ([0, 1/2, 1] : List ℚ).getD 1 0 - ([0, 1/2, 1] : List ℚ).getD 0 0 :=
  ⟨⟨by norm_num [HeunWithEuler, heunLoop, heunStep, List.getLastD],
    le_refl 1, by norm_num⟩,
   heun_stepsize_matches_time_increment 0 1 (1/2) 1 (1/2) 2 (fun _ _ => 1) 4
     [0, 1/2, 1] [0, 1/2, 1] [1/2, 1/2, 1/2]
     (by norm_num [HeunWithEuler, heunLoop, heunStep, List.getLastD])
     1 (le_refl 1) (by norm_num)⟩

/-- Last entry of a mapped range. -/
theorem getLastD_map_range (g : ℕ → ℚ) (n : ℕ) :
    ((List.range (n+1)).map g).getLastD 0 = g n := by
  rw [List.range_succ, List.map_append]
  simp [List.getLastD_concat]

/-- Entry `i` of a mapped range. -/
theorem getD_map_range (g : ℕ → ℚ) (n i : ℕ) (hi : i < n) :
    ((List.range n).map g).getD i 0 = g i := by
  rw [List.getD_eq_getElem _ _ (by simpa using hi)]
  simp

/-- The loop body of `explicitRK` extends an arithmetic time grid
`0, h, ..., n*h` (whose proper prefix lies below the horizon) by one more
multiple of `h`. -/
theorem rkLoopBody_preserves_grid (a : ℕ → ℕ → ℚ) (b c : List ℚ)
    (f : ℚ → ℚ → ℚ) (T h : ℚ) (s : RKState)
    (hI : ∃ n : ℕ, s.ts = (List.range (n+1)).map (fun k : ℕ => (k:ℚ) * h) ∧
      ∀ k < n, (k:ℚ) * h < T)
    (hc : s.ts.getLastD 0 < T) :
    ∃ n : ℕ, (rkLoopBody a b c f h s).ts =
        (List.range (n+1)).map (fun k : ℕ => (k:ℚ) * h) ∧
      ∀ k < n, (k:ℚ) * h < T := by
  obtain ⟨n, hts, hlt⟩ := hI
  have hlastv : s.ts.getLastD 0 = (n:ℚ) * h := by
    rw [hts]
    exact getLastD_map_range _ n
  refine ⟨n+1, ?_, ?_⟩
  · show s.ts ++ [s.ts.getLastD 0 + h] = _
    rw [hlastv, hts]
    have hsplit : (List.range (n+1+1)).map (fun k : ℕ => (k:ℚ) * h) =
        (List.range (n+1)).map (fun k : ℕ => (k:ℚ) * h) ++ [(n:ℚ) * h + h] := by
      rw [List.range_succ, List.map_append, List.map_singleton]
      congr 2
      push_cast
      ring
    rw [hsplit]
  · intro k hk
    rcases Nat.lt_succ_iff_lt_or_eq.mp hk with hk' | hk'
    · exact hlt k hk'
    · subst hk'
      exact hlastv ▸ hc

/-- C3: for every horizon `T > 0` and positive step size `h`, `explicitRK`
terminates for sufficient fuel, and every terminating call returns the
time grid `0, h, 2h, ..., N*h` where `N` is the least positive integer
with `N*h ≥ T`: consecutive times differ by exactly `h`, all times before
the last are strictly below `T`, and the final time is at or beyond `T`
with no clipping. -/
theorem explicitRK_fixed_time_grid (a : ℕ → ℕ → ℚ) (b c : List ℚ)
    (y0 T : ℚ) (f : ℚ → ℚ → ℚ) (h : ℚ) (hT : 0 < T) (hh : 0 < h) :
    (∃ (fuel : ℕ) (r : List ℚ × List ℚ),
      explicitRK a b c y0 T f h fuel = some r) ∧
    ∀ (fuel : ℕ) (ts ys : List ℚ),
      explicitRK a b c y0 T f h fuel = some (ts, ys) →
      ∃ N : ℕ, 0 < N ∧ T ≤ (N:ℚ) * h ∧ (∀ k < N, (k:ℚ) * h < T) ∧
        ts = (List.range (N+1)).map (fun k : ℕ => (k:ℚ) * h) ∧
        ∀ i : ℕ, i + 1 < ts.length → ts.getD (i+1) 0 = ts.getD i 0 + h := by
  constructor
  · obtain ⟨n, hn⟩ := exists_nat_gt (T / h)
    have hbound : T ≤ (({ ts := [0], ys := [y0] } : RKState)).ts.getLastD 0
        + (n : ℚ) * h := by
      have hlt : T < n * h := (div_lt_iff₀ hh).mp hn
      have h0 : (({ ts := [0], ys := [y0] } : RKState)).ts.getLastD 0 = 0 := by
        norm_num [List.getLastD]
      rw [h0]
      linarith
    obtain ⟨s', hs'⟩ := rkLoop_terminates a b c f T h n _ hbound
    exact ⟨n, (s'.ts, s'.ys), by rw [explicitRK, hs']; rfl⟩
  · intro fuel ts ys hrun
    unfold explicitRK at hrun
    obtain ⟨s', hrun', heq⟩ := Option.map_eq_some'.mp hrun
    simp only [Prod.mk.injEq] at heq
    obtain ⟨hts, hys⟩ := heq
    subst hts hys
    have Hinv := rkLoop_invariant a b c f T h
      (fun s => ∃ n : ℕ, s.ts = (List.range (n+1)).map (fun k : ℕ => (k:ℚ) * h) ∧
        ∀ k < n, (k:ℚ) * h < T)
      (fun s hI hc => rkLoopBody_preserves_grid a b c f T h s hI hc)
      fuel _ s' hrun'
      ⟨0, by norm_num [List.range_succ], fun k hk => absurd hk (Nat.not_lt_zero k)⟩
    obtain ⟨⟨n, hts, hlt⟩, hstop⟩ := Hinv
    have hle : T ≤ (n:ℚ) * h := by
      have := not_lt.mp hstop
      rwa [hts, getLastD_map_range] at this
    have hN : 0 < n := by
      by_contra h0
      push_neg at h0
      interval_cases n
      simp only [Nat.cast_zero, zero_mul] at hle
      linarith
    refine ⟨n, hN, hle, hlt, hts, ?_⟩
    intro i hi
    rw [hts] at hi ⊢
    simp only [List.length_map, List.length_range] at hi
    rw [getD_map_range _ _ _ (by omega), getD_map_range _ _ _ (by omega)]
    push_cast
    ring

/-- Witness for C3: Euler's tableau with `T = 1`, `h = 1/2` terminates and
produces the grid `[0, 1/2, 1]` with `N = 2`. -/
theorem explicitRK_fixed_time_grid_witness :
    ((0:ℚ) < 1 ∧ (0:ℚ) < 1/2) ∧
    ((∃ (fuel : ℕ) (r : List ℚ × List ℚ),
      explicitRK (fun _ _ => 0) [1] [0] 0 1 (fun _ _ => 1) (1/2) fuel = some r) ∧
    ∀ (fuel : ℕ) (ts ys : List ℚ),
      explicitRK (fun _ _ => 0) [1] [0] 0 1 (fun _ _ => 1) (1/2) fuel =
        some (ts, ys) →
      ∃ N : ℕ, 0 < N ∧ (1:ℚ) ≤ (N:ℚ) * (1/2) ∧
        (∀ k < N, (k:ℚ) * (1/2) < 1) ∧
        ts = (List.range (N+1)).map (fun k : ℕ => (k:ℚ) * (1/2)) ∧
        ∀ i : ℕ, i + 1 < ts.length →
          ts.getD (i+1) 0 = ts.getD i 0 + 1/2) :=
  ⟨⟨by norm_num, by norm_num⟩,
   explicitRK_fixed_time_grid (fun _ _ => 0) [1] [0] 0 1 (fun _ _ => 1) (1/2)
     (by norm_num) (by norm_num)⟩

/-- Weighted fold over index range: the accumulation
`acc + h * b[i] * C` over `i < b.length` adds `h * C * (Σ b)`. -/
theorem foldl_weighted (h C : ℚ) : ∀ (b : List ℚ) (r : ℚ),
    (List.range b.length).foldl (fun acc i => acc + h * b.getD i 0 * C) r
      = r + h * C * b.sum := by
  intro b
  induction b using List.reverseRecOn with
  | nil => intro r; simp
  | append_singleton b' x ih =>
    intro r
    rw [List.length_append, List.length_singleton, List.range_succ,
      List.foldl_append]
    have hsame : (List.range b'.length).foldl
        (fun acc i => acc + h * (b' ++ [x]).getD i 0 * C) r =
        (List.range b'.length).foldl
        (fun acc i => acc + h * b'.getD i 0 * C) r := by
      apply List.foldl_ext
      intro acc i hi
      rw [List.getD_append _ _ _ _ (List.mem_range.mp hi)]
    rw [hsame, ih r]
    simp only [List.foldl_cons, List.foldl_nil]
    rw [List.getD_append_right _ _ _ _ (le_refl _), Nat.sub_self]
    simp only [List.getD_cons_zero, List.sum_append, List.sum_cons,
      List.sum_nil]
    ring

/-- With a constant right-hand side, every stage derivative is the
constant. -/
theorem rkStages_const (a : ℕ → ℕ → ℚ) (c : List ℚ) (C t y h : ℚ) :
    ∀ m, rkStages a c (fun _ _ => C) t y h m = List.replicate m C := by
  intro m
  induction m with
  | zero => rfl
  | succ k ih =>
    show rkStages a c (fun _ _ => C) t y h k ++ [C] = List.replicate (k+1) C
    rw [ih, ← List.replicate_succ']

/-- The Runge-Kutta increment over a stage list that is constantly `C`
is `h * C * (Σ b)`. -/
theorem rkIncrement_const (b ks : List ℚ) (h C : ℚ)
    (hks : ∀ i < b.length, ks.getD i 0 = C) :
    rkIncrement b ks h = h * C * b.sum := by
  unfold rkIncrement
  have hsame : (List.range b.length).foldl
      (fun acc i => acc + h * b.getD i 0 * ks.getD i 0) 0 =
      (List.range b.length).foldl
      (fun acc i => acc + h * b.getD i 0 * C) 0 := by
    apply List.foldl_ext
    intro acc i hi
    rw [hks i (List.mem_range.mp hi)]
  rw [hsame, foldl_weighted, zero_add]

/-- With a constant right-hand side and consistent weights
(`Σ b = 1`), one explicit Runge-Kutta step advances the state by exactly
`h * C`. -/
theorem rkStep_const (a : ℕ → ℕ → ℚ) (b c : List ℚ) (C h t y : ℚ)
    (hb : b.sum = 1) :
    rkStep a b c (fun _ _ => C) h t y = y + h * C := by
  unfold rkStep
  rw [rkIncrement_const b _ h C ?hks, hb, mul_one]
  case hks =>
    intro i hi
    rw [rkStages_const a c C t y h b.length,
      List.getD_eq_getElem _ _ (by simpa using hi), List.getElem_replicate]

/-- The loop body of `explicitRK` on a constant field extends a linear
trajectory `y0 + k*h*C` by one more sample. -/
theorem rkLoopBody_preserves_linear (a : ℕ → ℕ → ℚ) (b c : List ℚ)
    (y0 C h : ℚ) (hb : b.sum = 1) (s : RKState)
    (hI : ∃ n : ℕ, s.ys =
      (List.range (n+1)).map (fun k : ℕ => y0 + (k:ℚ) * h * C)) :
    ∃ n : ℕ, (rkLoopBody a b c (fun _ _ => C) h s).ys =
      (List.range (n+1)).map (fun k : ℕ => y0 + (k:ℚ) * h * C) := by
  obtain ⟨n, hys⟩ := hI
  have hlastv : s.ys.getLastD 0 = y0 + (n:ℚ) * h * C := by
    rw [hys]
    exact getLastD_map_range _ n
  refine ⟨n+1, ?_⟩
  show s.ys ++ [rkStep a b c (fun _ _ => C) h (s.ts.getLastD 0)
    (s.ys.getLastD 0)] = _
  rw [rkStep_const a b c C h _ _ hb, hlastv, hys]
  have hsplit : (List.range (n+1+1)).map (fun k : ℕ => y0 + (k:ℚ) * h * C) =
      (List.range (n+1)).map (fun k : ℕ => y0 + (k:ℚ) * h * C) ++
        [y0 + (n:ℚ) * h * C + h * C] := by
    rw [List.range_succ, List.map_append, List.map_singleton]
    congr 2
    push_cast
    ring
  rw [hsplit]

/-- C4: for every tableau whose weights sum to `1`, constant right-hand
side `C`, initial state, positive step size and horizon, the trajectory
of `explicitRK` satisfies `y_n = y0 + n*h*C` exactly at every recorded
step index `n` with `n*h ≤ T`. -/
theorem explicitRK_constant_field_exact (a : ℕ → ℕ → ℚ) (b c : List ℚ)
    (y0 T C h : ℚ) (fuel : ℕ) (ts ys : List ℚ)
    (hb : b.sum = 1)
    (hrun : explicitRK a b c y0 T (fun _ _ => C) h fuel = some (ts, ys)) :
    ∀ n : ℕ, n < ys.length → (n:ℚ) * h ≤ T →
      ys.getD n 0 = y0 + (n:ℚ) * h * C := by
  unfold explicitRK at hrun
  obtain ⟨s', hrun', heq⟩ := Option.map_eq_some'.mp hrun
  simp only [Prod.mk.injEq] at heq
  obtain ⟨hts, hys⟩ := heq
  subst hts hys
  have Hinv := rkLoop_invariant a b c (fun _ _ => C) T h
    (fun s => ∃ n : ℕ, s.ys =
      (List.range (n+1)).map (fun k : ℕ => y0 + (k:ℚ) * h * C))
    (fun s hI _ => rkLoopBody_preserves_linear a b c y0 C h hb s hI)
    fuel _ s' hrun'
    ⟨0, by norm_num [List.range_succ]⟩
  obtain ⟨⟨m, hys⟩, _⟩ := Hinv
  intro n hn _
  rw [hys] at hn ⊢
  simp only [List.length_map, List.length_range] at hn
  exact getD_map_range _ _ n hn

/-- Witness for C4: Heun's tableau (weights `[1/2, 1/2]`) on the constant
field `C = 1` with `h = 1/2` gives `y_2 = 0 + 2*(1/2)*1 = 1` at index
`2`, where `2*(1/2) ≤ 1`. -/
theorem explicitRK_constant_field_exact_witness :
    (([1/2, 1/2] : List ℚ).sum = 1 ∧
      explicitRK (fun i j => if i = 1 ∧ j = 0 then 1 else 0) [1/2, 1/2] [0, 1]
        0 1 (fun _ _ => 1) (1/2) 3 =
        some ([0, 1/2, 1], [0, 1/2, 1]) ∧
      (2:ℕ) < ([0, 1/2, 1] : List ℚ).length ∧ ((2:ℕ):ℚ) * (1/2) ≤ 1) ∧
    ([0, 1/2, 1] : List ℚ).getD 2 0 = 0 + ((2:ℕ):ℚ) * (1/2) * 1 :=
  ⟨⟨by norm_num,
    by norm_num [explicitRK, rkLoop, rkLoopBody, rkStep, rkStages,
      rkIncrement, List.getLastD, List.range_succ],
    by norm_num, by norm_num⟩,
   explicitRK_constant_field_exact (fun i j => if i = 1 ∧ j = 0 then 1 else 0)
     [1/2, 1/2] [0, 1] 0 1 1 (1/2) 3 [0, 1/2, 1] [0, 1/2, 1]
     (by norm_num)
     (by norm_num [explicitRK, rkLoop, rkLoopBody, rkStep, rkStages,
       rkIncrement, List.getLastD, List.range_succ])
     2 (by norm_num) (by norm_num)⟩

/-- The stage derivatives only read the strictly lower-triangular part of
the coefficient matrix. -/
theorem rkStages_congr (a a' : ℕ → ℕ → ℚ)
    (hagree : ∀ i j, j < i → a i j = a' i j)
    (c : List ℚ) (f : ℚ → ℚ → ℚ) (t y h : ℚ) :
    ∀ m, rkStages a c f t y h m = rkStages a' c f t y h m := by
  intro m
  induction m with
  | zero => rfl
  | succ k ih =>
    show rkStages a c f t y h k ++ [f (t + c.getD k 0 * h)
        (y + (List.range k).foldl
          (fun acc j => acc + h * a k j * (rkStages a c f t y h k).getD j 0) 0)]
      = rkStages a' c f t y h k ++ [f (t + c.getD k 0 * h)
        (y + (List.range k).foldl
          (fun acc j => acc + h * a' k j * (rkStages a' c f t y h k).getD j 0) 0)]
    rw [ih]
    have hfold : (List.range k).foldl
        (fun acc j => acc + h * a k j * (rkStages a' c f t y h k).getD j 0) 0 =
        (List.range k).foldl
        (fun acc j => acc + h * a' k j * (rkStages a' c f t y h k).getD j 0) 0 := by
      apply List.foldl_ext
      intro acc j hj
      rw [hagree k j (List.mem_range.mp hj)]
    rw [hfold]

/-- One Runge-Kutta step only reads the strictly lower-triangular part of
the coefficient matrix. -/
theorem rkStep_congr (a a' : ℕ → ℕ → ℚ)
    (hagree : ∀ i j, j < i → a i j = a' i j)
    (b c : List ℚ) (f : ℚ → ℚ → ℚ) (h t y : ℚ) :
    rkStep a b c f h t y = rkStep a' b c f h t y := by
  unfold rkStep
  rw [rkStages_congr a a' hagree c f t y h b.length]

/-- The whole `rkLoop` only reads the strictly lower-triangular part of
the coefficient matrix. -/
theorem rkLoop_congr (a a' : ℕ → ℕ → ℚ)
    (hagree : ∀ i j, j < i → a i j = a' i j)
    (b c : List ℚ) (f : ℚ → ℚ → ℚ) (T h : ℚ) :
    ∀ (fuel : ℕ) (s : RKState),
      rkLoop a b c f T h fuel s = rkLoop a' b c f T h fuel s := by
  intro fuel
  induction fuel with
  | zero => intro s; rfl
  | succ n ih =>
    intro s
    rw [rkLoop, rkLoop]
    by_cases hc : s.ts.getLastD 0 < T
    · rw [if_pos hc, if_pos hc, ih]
      have hbody : rkLoopBody a b c f h s = rkLoopBody a' b c f h s := by
        show ({ ts := s.ts ++ [s.ts.getLastD 0 + h],
                ys := s.ys ++ [rkStep a b c f h (s.ts.getLastD 0)
                  (s.ys.getLastD 0)] } : RKState) = _
        rw [rkStep_congr a a' hagree b c f h]
        rfl
      rw [hbody]
    · rw [if_neg hc, if_neg hc]

/-- C6: the output of `explicitRK` depends only on the strictly
lower-triangular part of the coefficient matrix `a`: entries `a i j` with
`j ≥ i` are never read, so two tableaus agreeing below the diagonal give
identical time and state sequences on identical remaining inputs. -/
theorem explicitRK_lower_triangle_only (a a' : ℕ → ℕ → ℚ) (b c : List ℚ)
    (y0 T : ℚ) (f : ℚ → ℚ → ℚ) (h : ℚ) (fuel : ℕ)
    (hagree : ∀ i j, j < i → a i j = a' i j) :
    explicitRK a b c y0 T f h fuel = explicitRK a' b c y0 T f h fuel := by
  unfold explicitRK
  rw [rkLoop_congr a a' hagree b c f T h fuel]

/-- Witness for C6: the zero matrix and a matrix with garbage `5` on and
above the diagonal agree strictly below it, and produce identical
outputs of `explicitRK` on Heun's stage structure. -/
theorem explicitRK_lower_triangle_only_witness :
    (∀ i j : ℕ, j < i →
      (fun _ _ => (0:ℚ)) i j = (fun i j => if j < i then (0:ℚ) else 5) i j) ∧
    explicitRK (fun _ _ => 0) [1/2, 1/2] [0, 1] 0 1 (fun t _ => t) (1/2) 3 =
      explicitRK (fun i j => if j < i then 0 else 5) [1/2, 1/2] [0, 1] 0 1
        (fun t _ => t) (1/2) 3 :=
  ⟨fun i j hj => by simp [hj],
   explicitRK_lower_triangle_only (fun _ _ => 0)
     (fun i j => if j < i then 0 else 5) [1/2, 1/2] [0, 1] 0 1
     (fun t _ => t) (1/2) 3 (fun i j hj => by simp [hj])⟩

end RKAdapt
